import Mathlib

/-!
Verification of the memoized Fibonacci evaluator of `src/app/app.py`.

The Python source defines

  @lru_cache(maxsize=None)
  def fib(n: int) -> int:
      if n < 2:
          return n
      return fib(n-1) + fib(n-2)

  @app.route('/fib/<int:n>')
  def get_fib(n: int):
      if n < 0:
          return jsonify({"error": "Please provide a non-negative integer"}), 400
      result = fib(n)
      return jsonify({"n": n, "fib": result}), 200

Python integers are unbounded, so they are embedded as `Int`.  The
`lru_cache(maxsize=None)` decorator is embedded as an explicit cache
(`Int → Option Int`) threaded through the computation: every call first
looks its argument up in the cache and on a miss stores the computed
result (base cases included — `lru_cache` caches every distinct argument).
Recursive calls go through the decorated wrapper, so they consult and
populate the same cache, left argument of `+` first (Python evaluates
`fib(n-1)` before `fib(n-2)`).
-/

namespace App

/-- The mathematical value computed by the Python `fib`, without the cache:
`if n < 2: return n` else the sum of the two previous values.  Defined for
every `Int`, exactly as the Python function is (negative arguments hit the
base branch). -/
def fib (n : Int) : Int :=
  if n < 2 then n
  else fib (n - 1) + fib (n - 2)
termination_by n.toNat
decreasing_by
  · omega
  · omega

/-- The process-wide memoization table of `lru_cache`: a partial map from
argument to cached result. -/
def Cache : Type := Int → Option Int

/-- The cache at process start: empty. -/
def emptyCache : Cache := fun _ => none

/-- Storing a result under a key, as `lru_cache` does after a miss. -/
def Cache.insert (k v : Int) (c : Cache) : Cache :=
  fun x => if x = k then some v else c x

/-- The memoized `fib` of the source, with the `lru_cache` state made
explicit: returns the result together with the updated cache. -/
def fibMemo (n : Int) (c : Cache) : Int × Cache :=
  match c n with
  | some v => (v, c)
  | none =>
    if n < 2 then (n, Cache.insert n n c)
    else
      let p := fibMemo (n - 1) c
      let q := fibMemo (n - 2) p.2
      (p.1 + q.1, Cache.insert n (p.1 + q.1) q.2)
termination_by n.toNat
decreasing_by
  · omega
  · omega

/-- Fuel-indexed variant of `fibMemo`: `none` when the recursion budget is
exhausted.  Used to express termination (a budget of `n+1` nested calls
always suffices) and "no recursion happens" (a budget of 1 suffices). -/
def fibMemoFuel : Nat → Int → Cache → Option (Int × Cache)
  | 0, _, _ => none
  | f + 1, n, c =>
    match c n with
    | some v => some (v, c)
    | none =>
      if n < 2 then some (n, Cache.insert n n c)
      else
        match fibMemoFuel f (n - 1) c with
        | none => none
        | some p =>
          match fibMemoFuel f (n - 2) p.2 with
          | none => none
          | some q => some (p.1 + q.1, Cache.insert n (p.1 + q.1) q.2)

/-- Response body of the route handler: either the error object or the
`{"n": n, "fib": result}` payload. -/
inductive Resp : Type
  | err (msg : String)
  | ok (n : Int) (fibVal : Int)
deriving DecidableEq

/-- The `get_fib` route handler of the source: rejects negative `n` with
status 400 and an error body, otherwise calls `fib(n)` and returns status
200 with a payload holding both `n` and the result.  The cache state is
threaded explicitly. -/
def get_fib (n : Int) (c : Cache) : Resp × Nat × Cache :=
  if n < 0 then (Resp.err "Please provide a non-negative integer", 400, c)
  else
    let p := fibMemo n c
    (Resp.ok n p.1, 200, p.2)

/-- A cache whose every entry holds the value the Python `fib` computes for
its key.  Holds for the empty cache and is preserved by every call. -/
def GoodCache (c : Cache) : Prop := ∀ k v, c k = some v → v = fib k

/-- Running a sequence of evaluator calls, threading the cache. -/
def runCalls (calls : List Int) (c : Cache) : Cache :=
  match calls with
  | [] => c
  | n :: rest => runCalls rest (fibMemo n c).2

/-! ### Helper lemmas -/

theorem fib_toNat : ∀ (k : Nat) (n : Int), 0 ≤ n → n.toNat = k → fib n = (Nat.fib k : Int) := by
  intro k
  induction k using Nat.strong_induction_on with
  | _ k ih =>
    intro n hn hk
    rw [fib]
    split
    · rename_i h
      have hcase : n = 0 ∨ n = 1 := by omega
      rcases hcase with h0 | h1
      · subst h0
        have : k = 0 := by omega
        subst this
        simp
      · subst h1
        have : k = 1 := by omega
        subst this
        simp
    · rename_i h
      have hk2 : 2 ≤ k := by omega
      rw [ih (k-1) (by omega) (n-1) (by omega) (by omega),
          ih (k-2) (by omega) (n-2) (by omega) (by omega)]
      have hsplit : k = (k - 2) + 2 := by omega
      rw [hsplit, Nat.fib_add_two]
      push_cast
      ring_nf

theorem fib_nat (n : Int) (hn : 0 ≤ n) : fib n = (Nat.fib n.toNat : Int) :=
  fib_toNat n.toNat n hn rfl

theorem fib_base (n : Int) (h : n < 2) : fib n = n := by
  rw [fib]
  simp [h]

theorem fib_rec (n : Int) (h : 2 ≤ n) : fib n = fib (n - 1) + fib (n - 2) := by
  rw [fib]
  simp [show ¬ n < 2 by omega]

theorem emptyCache_good : GoodCache emptyCache := by
  intro k v h
  simp [emptyCache] at h

/-- Fuel `f > n.toNat` always suffices: the fuel-indexed evaluator then
agrees with the total one. -/
theorem fibMemoFuel_eq : ∀ (f : Nat) (n : Int) (c : Cache), n.toNat < f →
    fibMemoFuel f n c = some (fibMemo n c) := by
  intro f
  induction f with
  | zero => intro n c h; omega
  | succ f ih =>
    intro n c h
    rw [fibMemo, fibMemoFuel]
    cases hc : c n with
    | some v => rfl
    | none =>
      by_cases h2 : n < 2
      · simp [h2]
      · have e1 := ih (n-1) c (by omega)
        have e2 := ih (n-2) (fibMemo (n-1) c).2 (by omega)
        simp [h2, e1, e2]

/-- Main invariant lemma over the fuel-indexed evaluator: the result value
is `fib n` (given a good cache), goodness of the cache is preserved,
existing entries are never changed, and calls with `0 ≤ n` only add keys
`≥ 0`. -/
theorem fibMemoFuel_spec : ∀ (f : Nat) (n : Int) (c : Cache) (r : Int × Cache),
    fibMemoFuel f n c = some r →
    (GoodCache c → r.1 = fib n) ∧
    (GoodCache c → GoodCache r.2) ∧
    (∀ k v, c k = some v → r.2 k = some v) ∧
    (0 ≤ n → ∀ k v, r.2 k = some v → c k = some v ∨ 0 ≤ k) := by
  intro f
  induction f with
  | zero => intro n c r h; simp [fibMemoFuel] at h
  | succ f ih =>
    intro n c r h
    rw [fibMemoFuel] at h
    cases hc : c n with
    | some v =>
      rw [hc] at h
      simp at h
      subst h
      exact ⟨fun hg => hg n v hc, fun hg => hg, fun k w hk => hk, fun _ k w hk => Or.inl hk⟩
    | none =>
      rw [hc] at h
      by_cases h2 : n < 2
      · rw [if_pos h2] at h
        simp at h
        subst h
        refine ⟨fun _ => (fib_base n h2).symm, ?_, ?_, ?_⟩
        · intro hg k v hk
          simp only [Cache.insert] at hk
          split at hk
          · rename_i hkn
            injection hk with hv
            rw [← hv, hkn]
            exact (fib_base n h2).symm
          · exact hg k v hk
        · intro k v hk
          simp only [Cache.insert]
          split
          · rename_i hkn
            rw [hkn, hc] at hk
            simp at hk
          · exact hk
        · intro hn k v hk
          simp only [Cache.insert] at hk
          split at hk
          · rename_i hkn
            exact Or.inr (by omega)
          · exact Or.inl hk
      · rw [if_neg h2] at h
        cases hp : fibMemoFuel f (n - 1) c with
        | none => rw [hp] at h; simp at h
        | some p =>
          rw [hp] at h
          simp only at h
          cases hq : fibMemoFuel f (n - 2) p.2 with
          | none => rw [hq] at h; simp at h
          | some q =>
            rw [hq] at h
            simp at h
            subst h
            obtain ⟨hp1, hp2, hp3, hp4⟩ := ih (n-1) c p hp
            obtain ⟨hq1, hq2, hq3, hq4⟩ := ih (n-2) p.2 q hq
            refine ⟨?_, ?_, ?_, ?_⟩
            · intro hg
              show p.1 + q.1 = fib n
              rw [hp1 hg, hq1 (hp2 hg)]
              exact (fib_rec n (by omega)).symm
            · intro hg k v hk
              simp only [Cache.insert] at hk
              split at hk
              · rename_i hkn
                injection hk with hv
                rw [← hv, hkn, hp1 hg, hq1 (hp2 hg)]
                exact (fib_rec n (by omega)).symm
              · exact hq2 (hp2 hg) k v hk
            · intro k v hk
              simp only [Cache.insert]
              split
              · rename_i hkn
                rw [hkn, hc] at hk
                simp at hk
              · exact hq3 k v (hp3 k v hk)
            · intro hn k v hk
              simp only [Cache.insert] at hk
              split at hk
              · rename_i hkn
                exact Or.inr (by omega)
              · rcases hq4 (by omega) k v hk with h' | h'
                · rcases hp4 (by omega) k v h' with h'' | h''
                  · exact Or.inl h''
                  · exact Or.inr h''
                · exact Or.inr h'

theorem fibMemo_val (n : Int) (c : Cache) (hc : GoodCache c) : (fibMemo n c).1 = fib n :=
  (fibMemoFuel_spec (n.toNat + 1) n c _ (fibMemoFuel_eq _ n c (by omega))).1 hc

theorem fibMemo_good (n : Int) (c : Cache) (hc : GoodCache c) : GoodCache (fibMemo n c).2 :=
  (fibMemoFuel_spec (n.toNat + 1) n c _ (fibMemoFuel_eq _ n c (by omega))).2.1 hc

theorem fibMemo_preserve (n : Int) (c : Cache) (k v : Int) (hk : c k = some v) :
    (fibMemo n c).2 k = some v :=
  (fibMemoFuel_spec (n.toNat + 1) n c _ (fibMemoFuel_eq _ n c (by omega))).2.2.1 k v hk

theorem fibMemo_keys (n : Int) (c : Cache) (hn : 0 ≤ n) (k v : Int)
    (hk : (fibMemo n c).2 k = some v) : c k = some v ∨ 0 ≤ k :=
  (fibMemoFuel_spec (n.toNat + 1) n c _ (fibMemoFuel_eq _ n c (by omega))).2.2.2 hn k v hk

theorem runCalls_good : ∀ (calls : List Int) (c : Cache),
    GoodCache c → GoodCache (runCalls calls c) := by
  intro calls
  induction calls with
  | nil => intro c hc; exact hc
  | cons n rest ih =>
    intro c hc
    exact ih _ (fibMemo_good n c hc)

theorem runCalls_preserve : ∀ (calls : List Int) (c : Cache) (k v : Int),
    c k = some v → runCalls calls c k = some v := by
  intro calls
  induction calls with
  | nil => intro c k v hk; exact hk
  | cons n rest ih =>
    intro c k v hk
    exact ih _ k v (fibMemo_preserve n c k v hk)

theorem runCalls_keys : ∀ (calls : List Int) (c : Cache), (∀ m ∈ calls, 0 ≤ m) →
    ∀ k v, runCalls calls c k = some v → c k = some v ∨ 0 ≤ k := by
  intro calls
  induction calls with
  | nil => intro c _ k v hk; exact Or.inl hk
  | cons n rest ih =>
    intro c hnn k v hk
    rcases ih _ (fun m hm => hnn m (List.mem_cons_of_mem n hm)) k v hk with h' | h'
    · rcases fibMemo_keys n c (hnn n (List.mem_cons_self n rest)) k v h' with h'' | h''
      · exact Or.inl h''
      · exact Or.inr h''
    · exact Or.inr h'

/-- Cache-hit equation: a cached argument is answered from the cache, with
no change to the cache. -/
theorem fibMemo_hit (n : Int) (c : Cache) (v : Int) (hv : c n = some v) :
    fibMemo n c = (v, c) := by
  conv_lhs => rw [fibMemo]
  rw [hv]

/-- Base-case miss equation: `n < 2` returns `n` and caches it. -/
theorem fibMemo_base (n : Int) (c : Cache) (h2 : n < 2) (hc : c n = none) :
    fibMemo n c = (n, Cache.insert n n c) := by
  conv_lhs => rw [fibMemo]
  rw [hc]
  simp [h2]

/-- Recursive-case miss equation: the result is computed from the two
recursive calls (left one first, on the incoming cache) and stored under
key `n`. -/
theorem fibMemo_miss_rec (n : Int) (c : Cache) (h2 : ¬ n < 2) (hc : c n = none) :
    fibMemo n c = ((fibMemo (n-1) c).1 + (fibMemo (n-2) (fibMemo (n-1) c).2).1,
      Cache.insert n ((fibMemo (n-1) c).1 + (fibMemo (n-2) (fibMemo (n-1) c).2).1)
        (fibMemo (n-2) (fibMemo (n-1) c).2).2) := by
  conv_lhs => rw [fibMemo]
  rw [hc]
  simp [h2]

/-- On a cache hit one unit of fuel suffices: no recursive call is made. -/
theorem fibMemoFuel_one_hit (n : Int) (c : Cache) (v : Int) (hv : c n = some v) :
    fibMemoFuel 1 n c = some (v, c) := by
  rw [fibMemoFuel]
  rw [hv]

/-- For `n < 2` one unit of fuel suffices: no recursive call is made. -/
theorem fibMemoFuel_one_base (n : Int) (c : Cache) (h2 : n < 2) :
    fibMemoFuel 1 n c = some (fibMemo n c) := by
  rw [fibMemoFuel]
  cases hv : c n with
  | some v => rw [fibMemo_hit n c v hv]
  | none =>
    rw [if_pos h2, fibMemo_base n c h2 hv]

/-- Evaluation bridge: computing `(fibMemo n c).1` through the fuel-indexed
evaluator. -/
theorem fibMemo_fst_eval (n : Int) (c : Cache) (v : Int)
    (h : (fibMemoFuel (n.toNat + 1) n c).map Prod.fst = some v) :
    (fibMemo n c).1 = v := by
  rw [fibMemoFuel_eq _ n c (by omega)] at h
  simpa using h

/-- Evaluation bridge: inspecting the cache produced by `fibMemo n c`
through the fuel-indexed evaluator. -/
theorem fibMemo_cache_eval (n : Int) (c : Cache) (k : Int) (o : Option Int)
    (h : (fibMemoFuel (n.toNat + 1) n c).map (fun r => r.2 k) = some o) :
    (fibMemo n c).2 k = o := by
  rw [fibMemoFuel_eq _ n c (by omega)] at h
  simpa using h

/-! ### Claim theorems -/

/-- C1: for every `n ≥ 0`, `evaluate(n)` (the function `fib`) returns the
n-th Fibonacci number of the reference definition: `evaluate(0) = 0`,
`evaluate(1) = 1`, `evaluate(n) = evaluate(n-1) + evaluate(n-2)` for
`n ≥ 2`; in particular `evaluate(10) = 55` and `evaluate(20) = 6765`. -/
theorem evaluate_returns_fibonacci :
    (∀ n : Int, 0 ≤ n → (fibMemo n emptyCache).1 = (Nat.fib n.toNat : Int))
    ∧ (fibMemo 0 emptyCache).1 = 0
    ∧ (fibMemo 1 emptyCache).1 = 1
    ∧ (∀ n : Int, 2 ≤ n → ∀ c : Cache, GoodCache c →
        (fibMemo n c).1 = (fibMemo (n-1) c).1 + (fibMemo (n-2) c).1)
    ∧ (fibMemo 10 emptyCache).1 = 55
    ∧ (fibMemo 20 emptyCache).1 = 6765 := by
  have hmain : ∀ n : Int, 0 ≤ n → (fibMemo n emptyCache).1 = (Nat.fib n.toNat : Int) := by
    intro n hn
    rw [fibMemo_val n emptyCache emptyCache_good, fib_nat n hn]
  refine ⟨hmain, ?_, ?_, ?_, ?_, ?_⟩
  · rw [hmain 0 (by omega)]; decide
  · rw [hmain 1 (by omega)]; decide
  · intro n hn c hg
    rw [fibMemo_val n c hg, fibMemo_val (n-1) c hg, fibMemo_val (n-2) c hg]
    exact fib_rec n hn
  · rw [hmain 10 (by omega)]; decide
  · rw [hmain 20 (by omega)]; decide

/-- Witness for C1 at concrete inputs. -/
theorem evaluate_returns_fibonacci_witness :
    (fibMemo 7 emptyCache).1 = (Nat.fib (Int.toNat 7) : Int)
    ∧ (fibMemo 5 emptyCache).1 = (fibMemo (5-1) emptyCache).1 + (fibMemo (5-2) emptyCache).1 := by
  constructor
  · exact evaluate_returns_fibonacci.1 7 (by decide)
  · exact evaluate_returns_fibonacci.2.2.2.1 5 (by decide) emptyCache emptyCache_good

/-- C2 counterexample: the evaluator `fib` itself does NOT fail on negative
input; `fib(-1)` evaluates to `-1` and `fib(-1000)` to `-1000` (the `n < 2`
base branch captures every negative argument), so no `InvalidArgument`
error condition arises inside `fib`. -/
theorem fib_negative_returns_value :
    (fibMemo (-1) emptyCache).1 = -1 ∧ (fibMemo (-1000) emptyCache).1 = -1000 := by
  constructor
  · rw [fibMemo_val (-1) emptyCache emptyCache_good, fib_base (-1) (by omega)]
  · rw [fibMemo_val (-1000) emptyCache emptyCache_good, fib_base (-1000) (by omega)]

/-- C2 amended: for `n < 0` the evaluator `fib` itself succeeds and returns
`n`; the negative-input rejection lives in the request handler `get_fib`,
which answers with the error body and status 400 (without touching the
evaluator or its cache). -/
theorem negative_rejected_by_handler :
    ∀ n : Int, n < 0 → ∀ c : Cache, GoodCache c →
      (fibMemo n c).1 = n
      ∧ get_fib n c = (Resp.err "Please provide a non-negative integer", 400, c) := by
  intro n hn c hg
  constructor
  · rw [fibMemo_val n c hg, fib_base n (by omega)]
  · rw [get_fib, if_pos hn]

/-- Witness for the amended C2 at `n = -1`. -/
theorem negative_rejected_by_handler_witness :
    (fibMemo (-1) emptyCache).1 = -1
    ∧ get_fib (-1) emptyCache
        = (Resp.err "Please provide a non-negative integer", 400, emptyCache) :=
  negative_rejected_by_handler (-1) (by decide) emptyCache emptyCache_good

/-- C3: in every cache state reachable by a sequence of evaluator calls,
every cached entry sits at a key `k ≥ 0` and holds the k-th Fibonacci
number of the reference definition, and the cache is write-once per key:
a populated key is never changed by a later call. -/
theorem cache_invariant_write_once :
    ∀ calls : List Int, (∀ m ∈ calls, 0 ≤ m) →
      (∀ k v, runCalls calls emptyCache k = some v →
        0 ≤ k ∧ v = (Nat.fib k.toNat : Int))
      ∧ (∀ n k v, runCalls calls emptyCache k = some v →
          (fibMemo n (runCalls calls emptyCache)).2 k = some v) := by
  intro calls hcalls
  constructor
  · intro k v hk
    have hkey : 0 ≤ k := by
      rcases runCalls_keys calls emptyCache hcalls k v hk with h' | h'
      · simp [emptyCache] at h'
      · exact h'
    have hv : v = fib k := runCalls_good calls emptyCache emptyCache_good k v hk
    exact ⟨hkey, by rw [hv, fib_nat k hkey]⟩
  · intro n k v hk
    exact fibMemo_preserve n _ k v hk

/-- Witness for C3: after the single call `evaluate(10)`, key 2 holds
`fib(2) = 1` and stays `1` after a further call. -/
theorem cache_invariant_write_once_witness :
    0 ≤ (2:Int) ∧ (1:Int) = (Nat.fib (Int.toNat 2) : Int) := by
  have hrun : runCalls [10] emptyCache 2 = some 1 := by
    show (fibMemo 10 emptyCache).2 2 = some 1
    exact fibMemo_cache_eval 10 emptyCache 2 (some 1) rfl
  exact (cache_invariant_write_once [10] (by simp)).1 2 1 hrun

/-- C4: for `n ≥ 2` the evaluator first consults the cache: on a hit it
returns the cached value without recomputation (one unit of fuel suffices,
and the cache is unchanged); on a miss it computes
`evaluate(n-1) + evaluate(n-2)` (left call first, on the incoming cache),
stores the sum under key `n`, and returns it. -/
theorem memoization_policy :
    ∀ (n : Int) (c : Cache), 2 ≤ n →
      (∀ v, c n = some v →
        fibMemo n c = (v, c) ∧ fibMemoFuel 1 n c = some (v, c))
      ∧ (c n = none →
          (fibMemo n c).1 = (fibMemo (n-1) c).1 + (fibMemo (n-2) (fibMemo (n-1) c).2).1
          ∧ (fibMemo n c).2 n = some ((fibMemo n c).1)) := by
  intro n c hn
  constructor
  · intro v hv
    exact ⟨fibMemo_hit n c v hv, fibMemoFuel_one_hit n c v hv⟩
  · intro hc
    have h2 : ¬ n < 2 := by omega
    rw [fibMemo_miss_rec n c h2 hc]
    exact ⟨rfl, by simp [Cache.insert]⟩

/-- Witness for C4 at `n = 2`: a hit on a cache holding `2 ↦ 1`, and a miss
on the empty cache. -/
theorem memoization_policy_witness :
    (fibMemo 2 (Cache.insert 2 1 emptyCache) = (1, Cache.insert 2 1 emptyCache)
      ∧ fibMemoFuel 1 2 (Cache.insert 2 1 emptyCache)
          = some (1, Cache.insert 2 1 emptyCache))
    ∧ ((fibMemo 2 emptyCache).1
        = (fibMemo (2-1) emptyCache).1 + (fibMemo (2-2) (fibMemo (2-1) emptyCache).2).1
      ∧ (fibMemo 2 emptyCache).2 2 = some ((fibMemo 2 emptyCache).1)) := by
  constructor
  · exact (memoization_policy 2 (Cache.insert 2 1 emptyCache) (by omega)).1 1
      (by simp [Cache.insert])
  · exact (memoization_policy 2 emptyCache (by omega)).2 rfl

/-- C5: the request handler `get_fib` returns the error body with status
400 for `n < 0`, leaving the cache untouched (the evaluator is not
called); for `n ≥ 0` it returns status 200 with a payload carrying both
the input `n` and the computed Fibonacci value. -/
theorem request_handler_statuses :
    ∀ (n : Int) (c : Cache),
      (n < 0 → get_fib n c = (Resp.err "Please provide a non-negative integer", 400, c))
      ∧ (0 ≤ n → GoodCache c →
          get_fib n c = (Resp.ok n (Nat.fib n.toNat : Int), 200, (fibMemo n c).2)) := by
  intro n c
  constructor
  · intro hn
    rw [get_fib, if_pos hn]
  · intro hn hg
    rw [get_fib, if_neg (by omega)]
    show (Resp.ok n (fibMemo n c).1, 200, (fibMemo n c).2) = _
    rw [fibMemo_val n c hg, fib_nat n hn]

/-- Witness for C5 at `n = -1` and `n = 2`. -/
theorem request_handler_statuses_witness :
    get_fib (-1) emptyCache
      = (Resp.err "Please provide a non-negative integer", 400, emptyCache)
    ∧ get_fib 2 emptyCache
      = (Resp.ok 2 (Nat.fib (Int.toNat 2) : Int), 200, (fibMemo 2 emptyCache).2) :=
  ⟨(request_handler_statuses (-1) emptyCache).1 (by decide),
   (request_handler_statuses 2 emptyCache).2 (by decide) emptyCache_good⟩

/-- C6: for every `n ≥ 0` the evaluation terminates along the decreasing
measure `n`: any recursion budget larger than `n` makes the fuel-indexed
evaluator succeed, and it returns exactly the value of the total function
`fibMemo` — deterministically, whatever the budget. -/
theorem evaluation_terminates :
    ∀ (n : Int) (c : Cache), 0 ≤ n → ∀ f : Nat, n.toNat < f →
      fibMemoFuel f n c = some (fibMemo n c) :=
  fun n c _ f hf => fibMemoFuel_eq f n c hf

/-- Witness for C6 at `n = 4`, budget 5. -/
theorem evaluation_terminates_witness :
    fibMemoFuel 5 4 emptyCache = some (fibMemo 4 emptyCache) :=
  evaluation_terminates 4 emptyCache (by decide) 5 (by decide)

/-- C7: for every `n ≥ 0` the value of `evaluate(n)` is the same in any two
reachable cache states (whatever sequences of prior calls produced them),
and calling `evaluate(n)` twice in succession yields the identical value
both times. -/
theorem evaluate_deterministic_idempotent :
    ∀ n : Int, 0 ≤ n → ∀ calls1 calls2 : List Int,
      (fibMemo n (runCalls calls1 emptyCache)).1
        = (fibMemo n (runCalls calls2 emptyCache)).1
      ∧ (fibMemo n (fibMemo n (runCalls calls1 emptyCache)).2).1
        = (fibMemo n (runCalls calls1 emptyCache)).1 := by
  intro n _ calls1 calls2
  have h1 := runCalls_good calls1 emptyCache emptyCache_good
  have h2 := runCalls_good calls2 emptyCache emptyCache_good
  constructor
  · rw [fibMemo_val n _ h1, fibMemo_val n _ h2]
  · rw [fibMemo_val n _ h1, fibMemo_val n _ (fibMemo_good n _ h1)]

/-- Witness for C7 at `n = 3` with histories `[2]` and `[]`. -/
theorem evaluate_deterministic_idempotent_witness :
    (fibMemo 3 (runCalls [2] emptyCache)).1 = (fibMemo 3 (runCalls [] emptyCache)).1
    ∧ (fibMemo 3 (fibMemo 3 (runCalls [2] emptyCache)).2).1
        = (fibMemo 3 (runCalls [2] emptyCache)).1 :=
  evaluate_deterministic_idempotent 3 (by decide) [2] []

/-- C8: values are exact unbounded integers: for every `n ≥ 0` the
evaluator returns the exact mathematical Fibonacci number, and at `n = 93`
the result already exceeds the 64-bit signed integer maximum — with no
overflow. -/
theorem unbounded_precision :
    (∀ n : Int, 0 ≤ n → (fibMemo n emptyCache).1 = (Nat.fib n.toNat : Int))
    ∧ (9223372036854775807 : Int) < (fibMemo 93 emptyCache).1 := by
  have hmain : ∀ n : Int, 0 ≤ n → (fibMemo n emptyCache).1 = (Nat.fib n.toNat : Int) := by
    intro n hn
    rw [fibMemo_val n emptyCache emptyCache_good, fib_nat n hn]
  refine ⟨hmain, ?_⟩
  rw [hmain 93 (by decide)]
  decide

/-- Witness for C8 at `n = 6`. -/
theorem unbounded_precision_witness :
    (fibMemo 6 emptyCache).1 = (Nat.fib (Int.toNat 6) : Int) :=
  unbounded_precision.1 6 (by decide)

/-- C9: for every `n < 0`, `fib(n)` returns `n` itself, without recursing
(one unit of fuel suffices) and without any error: the `n < 2` base branch
captures all negative inputs. -/
theorem negative_input_returns_n :
    ∀ n : Int, n < 0 →
      fib n = n
      ∧ (∀ c : Cache, GoodCache c → (fibMemo n c).1 = n)
      ∧ (∀ c : Cache, fibMemoFuel 1 n c = some (fibMemo n c)) := by
  intro n hn
  refine ⟨fib_base n (by omega), ?_, ?_⟩
  · intro c hg
    rw [fibMemo_val n c hg, fib_base n (by omega)]
  · intro c
    exact fibMemoFuel_one_base n c (by omega)

/-- Witness for C9 at `n = -5`. -/
theorem negative_input_returns_n_witness :
    fib (-5) = -5 ∧ (fibMemo (-5) emptyCache).1 = -5
    ∧ fibMemoFuel 1 (-5) emptyCache = some (fibMemo (-5) emptyCache) := by
  obtain ⟨h1, h2, h3⟩ := negative_input_returns_n (-5) (by decide)
  exact ⟨h1, h2 emptyCache emptyCache_good, h3 emptyCache⟩

/-- C10: for every `n ≥ 0`, `fib(n) ≥ 0` and `fib(n) ≤ fib(n+1)`: the
function is non-negative and monotonically non-decreasing on the
non-negative integers. -/
theorem fib_nonneg_monotone :
    ∀ n : Int, 0 ≤ n → 0 ≤ fib n ∧ fib n ≤ fib (n + 1) := by
  intro n hn
  rw [fib_nat n hn, fib_nat (n+1) (by omega)]
  constructor
  · exact Int.natCast_nonneg _
  · have ht : (n+1).toNat = n.toNat + 1 := by omega
    rw [ht]
    exact_mod_cast Nat.fib_le_fib_succ

/-- Witness for C10 at `n = 5`. -/
theorem fib_nonneg_monotone_witness :
    0 ≤ fib 5 ∧ fib 5 ≤ fib (5 + 1) :=
  fib_nonneg_monotone 5 (by decide)

end App
